import Mathlib

/-!
Verification of the distributed K-Means engine of `kmeans_pim`.

Shallow embedding conventions:
* `double` values of the C sources are modelled as exact rationals (`ℚ`);
  the floating-point literals appearing in the sources (`1e30` in
  `dpu_kmeans.c`, `DBL_MAX` in `host_kmeans.c`, `0.01` / `99999.0` in the
  host loop) are carried over as the exact rationals they denote.
* C arrays indexed by cluster are modelled as functions `ℕ → _`; writing
  `a[c] = v` becomes `Function.update a c v`.
* The `exit(1)` error paths are modelled with `Option` (`none` = abort).
* `sqrt` in the host's Frobenius-norm convergence test is avoided by
  comparing squares: for nonnegative `x, t`, `sqrt x > t ↔ x > t²`, so the
  loop carries the squared shift and squared threshold.
-/

/-- A point (or centroid) is a vector of `D` features, `double` in the
source, modelled as exact rationals. -/
abbrev Point := List ℚ

/-- The centroid table: `K` rows of `D` features (`c_clusters` on the DPU,
`dpu_ctds` / `cpu_ctds` on the host). -/
abbrev CTable := List Point

/-- Squared euclidean distance: the inner loop
`for f: diff = point[f] - cent[f]; dist += diff*diff` shared by
`dpu_kmeans.c` (lines 107-111) and `cpu_reference_kmeans`
(host_kmeans.c lines 100-105). -/
def sqDist (p c : Point) : ℚ :=
  (List.zipWith (fun a b => (a - b) * (a - b)) p c).sum

/-- The DPU kernel's initial `best_dist = 1e30` (dpu_kmeans.c line 103). -/
def SENTINEL : ℚ := 10 ^ 30

/-- The exact value of IEEE-754 `DBL_MAX`, the CPU reference's initial
`best_dist` (host_kmeans.c line 97): `(2 - 2⁻⁵²)·2¹⁰²³ = (2⁵³ - 1)·2⁹⁷¹`. -/
def DBL_MAX : ℚ := (2 ^ 53 - 1) * 2 ^ 971

/-- The nearest-centroid scan shared (up to initial values) by the DPU
kernel (dpu_kmeans.c lines 103-116) and the CPU reference
(host_kmeans.c lines 97-110): running `(best_dist, best_cl)`, strict `<`
comparison, `i` is the index of the head of the remaining centroid list.
`best_cl` is carried as `ℤ` so that the CPU's `-1` initial value fits. -/
def scanBest (p : Point) : List Point → ℚ → ℤ → ℕ → ℚ × ℤ
  | [], bd, bc, _ => (bd, bc)
  | c :: cs, bd, bc, i =>
    if sqDist p c < bd then scanBest p cs (sqDist p c) i (i + 1)
    else scanBest p cs bd bc (i + 1)

/-- The DPU kernel's cluster choice: `best_dist = 1e30`, `best_cl = 0`
(dpu_kmeans.c lines 103-116). -/
def bestClusterDpu (cents : CTable) (p : Point) : ℕ :=
  (scanBest p cents SENTINEL 0 0).2.toNat

/-- The CPU reference's cluster choice: `best_dist = DBL_MAX`,
`best_cl = -1` (host_kmeans.c lines 97-110). -/
def bestClusterCpu (cents : CTable) (p : Point) : ℤ :=
  (scanBest p cents DBL_MAX (-1) 0).2

/-- Per-cluster accumulator pair: a `K×D` sum array and a `K` count array
(`tasklet_sums`/`tasklet_counts` on the DPU, `acc_sums`/`acc_counts` on
the host), cluster-indexed arrays modelled as functions. -/
structure Agg where
  sums : ℕ → Point
  counts : ℕ → ℕ

/-- Zeroed accumulators (`memset(..., 0, ...)` / `calloc`). -/
def zeroAgg (D : ℕ) : Agg :=
  ⟨fun _ => List.replicate D 0, fun _ => 0⟩

/-- Elementwise vector addition (`sum_vec[f] += point[f]`). -/
def vecAdd (u v : Point) : Point := List.zipWith (· + ·) u v

/-- Add point `p` into cluster `c` of accumulator `a`:
`counts[c]++; sums[c][f] += p[f]` (dpu_kmeans.c lines 119-123,
host_kmeans.c lines 115-118). -/
def addPointAt (a : Agg) (c : ℕ) (p : Point) : Agg :=
  ⟨Function.update a.sums c (vecAdd (a.sums c) p),
   Function.update a.counts c (a.counts c + 1)⟩

/-- One step of the DPU assignment loop body: pick the nearest centroid
and accumulate (dpu_kmeans.c lines 99-124). -/
def addPoint (cents : CTable) (a : Agg) (p : Point) : Agg :=
  addPointAt a (bestClusterDpu cents p) p

/-- Sequential assignment over a list of points (the per-point loop of the
kernel, single worker, no batching). -/
def accumulate (cents : CTable) (pts : List Point) (a : Agg) : Agg :=
  pts.foldl (addPoint cents) a

/-- Number of points a burst can hold:
`max_pts_per_read = 2048 / (nfeatures * sizeof(double))`
(dpu_kmeans.c lines 84-85). -/
def burstPoints (D : ℕ) : ℕ := 2048 / (D * 8)

/-- The burst-wise point walk of one tasklet (dpu_kmeans.c lines 88-127):
`while (idx < end) { batch = MIN(B, end-idx); process batch; idx += batch }`,
with explicit fuel standing for the loop's progress (the C loop diverges
when `B = 0`; with fuel `pts.length` and `B ≥ 1` the fuel never runs out). -/
def processBatchedAux (cents : CTable) (B : ℕ) : ℕ → List Point → Agg → Agg
  | 0, _, a => a
  | fuel + 1, pts, a =>
    if pts.isEmpty then a
    else processBatchedAux cents B fuel (pts.drop B) (accumulate cents (pts.take B) a)

/-- Batched assignment over a tasklet's sub-range. -/
def processBatched (cents : CTable) (B : ℕ) (pts : List Point) (a : Agg) : Agg :=
  processBatchedAux cents B pts.length pts a

/-- Tasklet sub-range start:
`start = t_id * (dpu_points / W) + MIN(t_id, dpu_points % W)`
(dpu_kmeans.c line 80). -/
def taskletStart (n W t : ℕ) : ℕ := t * (n / W) + min t (n % W)

/-- Tasklet sub-range end:
`end = start + dpu_points / W + (t_id < rem ? 1 : 0)`
(dpu_kmeans.c line 81). -/
def taskletEnd (n W t : ℕ) : ℕ :=
  taskletStart n W t + n / W + (if t < n % W then 1 else 0)

/-- The slice of the unit's point block processed by tasklet `t` of `W`. -/
def subRange (pts : List Point) (W t : ℕ) : List Point :=
  (pts.drop (taskletStart pts.length W t)).take
    (taskletEnd pts.length W t - taskletStart pts.length W t)

/-- One tasklet's private accumulators after its batched walk
(dpu_kmeans.c lines 73-127). -/
def taskletAgg (cents : CTable) (pts : List Point) (W D t : ℕ) : Agg :=
  processBatched cents (burstPoints D) (subRange pts W t) (zeroAgg D)

/-- Elementwise merge of two accumulator pairs
(`dst[f] += src[f]`, `counts[0][c] += counts[tid][c]`). -/
def aggAdd (a b : Agg) : Agg :=
  ⟨fun c => vecAdd (a.sums c) (b.sums c), fun c => a.counts c + b.counts c⟩

/-- The unit's merged partial result: after the barrier, worker 0 adds
workers `1 .. W-1` into its own accumulators in order
(dpu_kmeans.c lines 130-141). -/
def dpuMerged (cents : CTable) (pts : List Point) (W D : ℕ) : Agg :=
  (List.range' 1 (W - 1)).foldl
    (fun acc t => aggAdd acc (taskletAgg cents pts W D t))
    (taskletAgg cents pts W D 0)

/-- The CPU reference's per-point step: scan, `exit(1)` (modelled `none`)
when `best_cl < 0`, else accumulate (host_kmeans.c lines 96-119). -/
def cpuStep (cents : CTable) (oa : Option Agg) (p : Point) : Option Agg :=
  oa.bind fun a =>
    let bc := bestClusterCpu cents p
    if bc < 0 then none else some (addPointAt a bc.toNat p)

/-- The CPU reference's whole assignment phase for one iteration. -/
def cpuAccumulate (cents : CTable) (pts : List Point) (D : ℕ) : Option Agg :=
  pts.foldl (cpuStep cents) (some (zeroAgg D))

/-- The points of one list assigned to cluster `c`. -/
def assignedPts (cents : CTable) (c : ℕ) (pts : List Point) : List Point :=
  pts.filter (fun p => bestClusterDpu cents p == c)

/-- Sum of a list of `D`-vectors, starting from the zero vector. -/
def vecSum (D : ℕ) (l : List Point) : Point :=
  l.foldl vecAdd (List.replicate D 0)

/-- Host partitioner, block size:
`count = n_points / nr_of_dpus + (i < n_points % nr_of_dpus ? 1 : 0)`
(host_kmeans.c lines 216-220, version1/host_kmeans.c lines 276-280). -/
def count (N U i : ℕ) : ℕ := N / U + if i < N % U then 1 else 0

/-- Host partitioner, block offset: accumulated exactly as the
`current_offset += count` loop does (host_kmeans.c lines 218-224). -/
def offset : ℕ → ℕ → ℕ → ℕ
  | _, _, 0 => 0
  | N, U, i + 1 => offset N U i + count N U i

/-- The host's partition table: the `partitions[i] = {count, offset}` array
(host_kmeans.c lines 210-224). Deterministic by construction: a pure
function of `(N, U)`. -/
def partition (N U : ℕ) : List (ℕ × ℕ) :=
  (List.range U).map fun i => (count N U i, offset N U i)

/-- Centroid update (host_kmeans.c lines 376-384, identically
version1/host_kmeans.c lines 417-425 and `cpu_reference_kmeans`
lines 121-129): clusters with a positive count become `sum/count`
elementwise, clusters with count zero keep the previous row. -/
def updateCentroids (old : CTable) (a : Agg) : CTable :=
  (List.range old.length).map fun c =>
    if 0 < a.counts c then (a.sums c).map (fun s => s / (a.counts c : ℚ))
    else old.getD c []

/-- Squared Frobenius norm of the centroid-table change: the
`sum += diff*diff` double loop of `frob_norm` (host_kmeans.c
lines 137-150) before the final `sqrt`. -/
def frobSq (oldc newc : CTable) : ℚ :=
  (List.zipWith
    (fun u v => (List.zipWith (fun a b => (b - a) * (b - a)) u v).sum)
    oldc newc).sum

/-- The host convergence loop (host_kmeans.c lines 292-298, 388):
`while (iter < MAX_ITER && shift > threshold) { iter++; step; shift = frob }`,
carried on squared shift/threshold (`sqrt x > t ↔ x > t²` for `t ≥ 0`).
The fuel argument is `MAX_ITER - iter`, so `fuel = 0` means
`iter = MAX_ITER`. Returns the final `(centroids, shiftSq, iter)`. -/
def kmeansLoop (step : CTable → CTable) (thrSq : ℚ) :
    ℕ → CTable → ℚ → ℕ → CTable × ℚ × ℕ
  | 0, ctds, shiftSq, iter => (ctds, shiftSq, iter)
  | fuel + 1, ctds, shiftSq, iter =>
    if thrSq < shiftSq then
      kmeansLoop step thrSq fuel (step ctds) (frobSq ctds (step ctds)) (iter + 1)
    else (ctds, shiftSq, iter)

/-- The host run: `iter = 0`, `shift = 99999.0` initially
(host_kmeans.c lines 292-295). -/
def hostRun (step : CTable → CTable) (thrSq : ℚ) (maxIter : ℕ)
    (init : CTable) : CTable × ℚ × ℕ :=
  kmeansLoop step thrSq maxIter init (99999 * 99999) 0

/-- Device capacity limit `MAX_POINTS_DPU` (dpu_kmeans.c line 27). -/
def MAX_POINTS_DPU : ℕ := 65536

/-- Device capacity limit `MAX_FEATURES` (dpu_kmeans.c line 31). -/
def MAX_FEATURES : ℕ := 16

/-- Device capacity limit `MAX_CLUSTERS` (dpu_kmeans.c line 35). -/
def MAX_CLUSTERS : ℕ := 20

/-- One host-to-unit transfer: target symbol and byte size. -/
structure Xfer where
  symbol : String
  bytes : ℕ
deriving DecidableEq

/-- The transfers the host setup path issues, translated from
host_kmeans.c lines 199-264: for each DPU a `t_features` push of
`count_i * n_features * sizeof(double)` bytes, then for each DPU a
12-byte `DPU_INPUT_ARGUMENTS` push. The source performs no validation of
`U`, `N`, `D`, `K` against zero or against the `MAX_*` limits anywhere on
this path: this function is total and never reports an error. -/
def hostSetupXfers (N D _K U : ℕ) : List Xfer :=
  ((List.range U).map fun i => Xfer.mk "t_features" (count N U i * D * 8)) ++
    (List.range U).map fun _ => Xfer.mk "DPU_INPUT_ARGUMENTS" 12

/-- Width of the quantized device feature type `int16_t`
(common.h line 9, `feature_t` under `__UPMEM__`). -/
def FEATURE_BITS : ℕ := 16

/-- Width of the quantized device sum/accumulator type `int64_t`
(common.h line 10, `sum_t` under `__UPMEM__`). -/
def SUM_BITS : ℕ := 64

/-- Two's-complement wraparound of a signed 64-bit accumulator. -/
def wrap64 (x : ℤ) : ℤ := (x + 2 ^ 63) % 2 ^ 64 - 2 ^ 63

/-- Modelled from the spec: no quantized-policy kernel exists under
`src/` (common.h only declares the `int16_t`/`int64_t`/`uint32_t` device
types); spec section 4.1 describes the quantized squared distance as
per-term differences widened before squaring, accumulated into the
signed 64-bit accumulator, which this definition renders with explicit
64-bit wraparound on each accumulation. -/
def sqDistQ (p c : List ℤ) : ℤ :=
  (List.zipWith (fun a b => (a - b) * (a - b)) p c).foldl
    (fun acc t => wrap64 (acc + t)) 0

/-- The exact (unbounded) quantized squared distance. -/
def sqDistQexact (p c : List ℤ) : ℤ :=
  (List.zipWith (fun a b => (a - b) * (a - b)) p c).sum

theorem mem_getD (l : List Point) (x : Point) (hx : x ∈ l) :
    ∃ k, k < l.length ∧ l.getD k [] = x := by
  obtain ⟨n, hn, rfl⟩ := List.getElem_of_mem hx
  exact ⟨n, hn, List.getD_eq_getElem l [] hn⟩

theorem getD_mem (l : List Point) (k : ℕ) (hk : k < l.length) :
    l.getD k [] ∈ l := by
  rw [List.getD_eq_getElem l [] hk]
  exact List.getElem_mem hk

/-- If no centroid beats the initial best distance, the scan returns its
initial state unchanged. -/
theorem scanBest_no_update (p : Point) (cs : List Point) (bd : ℚ) (b : ℤ)
    (i : ℕ) (h : ∀ c ∈ cs, bd ≤ sqDist p c) : scanBest p cs bd b i = (bd, b) := by
  induction cs generalizing i with
  | nil => rfl
  | cons c cs ih =>
    rw [scanBest, if_neg (not_lt.2 (h c (by simp)))]
    exact ih (i + 1) fun x hx => h x (by simp [hx])

/-- If some centroid beats the initial best distance, the scan returns the
first index attaining the minimum squared distance: the result index is
`i + j`, its distance is the returned best distance, every earlier index
is strictly farther and no index is closer. -/
theorem scanBest_spec (p : Point) (cs : List Point) (bd : ℚ) (b : ℤ) (i : ℕ)
    (h : ∃ c ∈ cs, sqDist p c < bd) :
    ∃ j, j < cs.length ∧ (scanBest p cs bd b i).2 = (i : ℤ) + j ∧
      sqDist p (cs.getD j []) = (scanBest p cs bd b i).1 ∧
      (∀ k, k < j → (scanBest p cs bd b i).1 < sqDist p (cs.getD k [])) ∧
      (∀ k, k < cs.length → (scanBest p cs bd b i).1 ≤ sqDist p (cs.getD k [])) := by
  induction cs generalizing bd b i with
  | nil => simp at h
  | cons c cs ih =>
    by_cases hc : sqDist p c < bd
    · rw [scanBest, if_pos hc]
      by_cases hex : ∃ c2 ∈ cs, sqDist p c2 < sqDist p c
      · obtain ⟨j, hj, hbc, hval, hearly, hall⟩ := ih (sqDist p c) i (i + 1) hex
        obtain ⟨c2, hc2, hlt⟩ := hex
        obtain ⟨k2, hk2, hk2v⟩ := mem_getD cs c2 hc2
        have hlead : (scanBest p cs (sqDist p c) (i : ℤ) (i + 1)).1 < sqDist p c := by
          calc (scanBest p cs (sqDist p c) (i : ℤ) (i + 1)).1
              ≤ sqDist p (cs.getD k2 []) := hall k2 hk2
            _ = sqDist p c2 := by rw [hk2v]
            _ < sqDist p c := hlt
        refine ⟨j + 1, by simpa using hj, ?_, ?_, ?_, ?_⟩
        · rw [hbc]; push_cast; ring
        · simpa using hval
        · intro k hk
          match k with
          | 0 => simpa using hlead
          | k + 1 => exact hearly k (by omega)
        · intro k hk
          match k with
          | 0 => simpa using hlead.le
          | k + 1 => exact hall k (by simpa using hk)
      · push_neg at hex
        have hstop := scanBest_no_update p cs (sqDist p c) (i : ℤ) (i + 1)
          (fun x hx => hex x hx)
        refine ⟨0, by simp, by simp [hstop], by simp [hstop], by simp, ?_⟩
        intro k hk
        match k with
        | 0 => simp [hstop]
        | k + 1 =>
          rw [hstop]
          simpa using hex (cs.getD k []) (getD_mem cs k (by simpa using hk))
    · rw [scanBest, if_neg hc]
      obtain ⟨c2, hc2, hlt⟩ := h
      have hc2cs : c2 ∈ cs := by
        rcases List.mem_cons.1 hc2 with rfl | hm
        · exact absurd hlt hc
        · exact hm
      obtain ⟨j, hj, hbc, hval, hearly, hall⟩ := ih bd b (i + 1) ⟨c2, hc2cs, hlt⟩
      obtain ⟨k2, hk2, hk2v⟩ := mem_getD cs c2 hc2cs
      have hlead : (scanBest p cs bd b (i + 1)).1 < sqDist p c := by
        calc (scanBest p cs bd b (i + 1)).1
            ≤ sqDist p (cs.getD k2 []) := hall k2 hk2
          _ = sqDist p c2 := by rw [hk2v]
          _ < bd := hlt
          _ ≤ sqDist p c := not_lt.1 hc
      refine ⟨j + 1, by simpa using hj, ?_, ?_, ?_, ?_⟩
      · rw [hbc]; push_cast; ring
      · simpa using hval
      · intro k hk
        match k with
        | 0 => simpa using hlead
        | k + 1 => exact hearly k (by omega)
      · intro k hk
        match k with
        | 0 => simpa using hlead.le
        | k + 1 => exact hall k (by simpa using hk)

/-- The first-minimum index chosen by the scan does not depend on the
initial best distance nor on the initial best index, as long as some
centroid beats the initial distance. -/
theorem scanBest_best_eq (p : Point) (cs : List Point) (bd₁ bd₂ : ℚ)
    (b₁ b₂ : ℤ) (h₁ : ∃ c ∈ cs, sqDist p c < bd₁)
    (h₂ : ∃ c ∈ cs, sqDist p c < bd₂) :
    (scanBest p cs bd₁ b₁ 0).2 = (scanBest p cs bd₂ b₂ 0).2 := by
  obtain ⟨j₁, hj₁, hbc₁, hval₁, hearly₁, hall₁⟩ := scanBest_spec p cs bd₁ b₁ 0 h₁
  obtain ⟨j₂, hj₂, hbc₂, hval₂, hearly₂, hall₂⟩ := scanBest_spec p cs bd₂ b₂ 0 h₂
  have hveq : (scanBest p cs bd₁ b₁ 0).1 = (scanBest p cs bd₂ b₂ 0).1 :=
    le_antisymm (hval₂ ▸ hall₁ j₂ hj₂) (hval₁ ▸ hall₂ j₁ hj₁)
  have hjeq : j₁ = j₂ := by
    rcases lt_trichotomy j₁ j₂ with hlt | heq | hgt
    · exact absurd (hveq ▸ hval₁ ▸ hearly₂ j₁ hlt) (lt_irrefl _)
    · exact heq
    · exact absurd (hveq ▸ hval₂ ▸ hearly₁ j₂ hgt) (lt_irrefl _)
  rw [hbc₁, hbc₂, hjeq]

/-- The literal `1e30` of the kernel is below `DBL_MAX`. -/
theorem sentinel_lt_dblmax : SENTINEL < DBL_MAX := by
  norm_num [SENTINEL, DBL_MAX]

/-- Whenever some centroid is within the kernel's sentinel distance, the
kernel's choice and the oracle's choice coincide. -/
theorem bestCluster_eq (cents : CTable) (p : Point)
    (h : ∃ c ∈ cents, sqDist p c < SENTINEL) :
    bestClusterCpu cents p = (bestClusterDpu cents p : ℤ) := by
  have h2 : ∃ c ∈ cents, sqDist p c < DBL_MAX := by
    obtain ⟨c, hc, hlt⟩ := h
    exact ⟨c, hc, hlt.trans sentinel_lt_dblmax⟩
  obtain ⟨j, hj, hbc, -⟩ := scanBest_spec p cents SENTINEL 0 0 h
  unfold bestClusterCpu bestClusterDpu
  rw [scanBest_best_eq p cents DBL_MAX SENTINEL (-1) 0 h2 h, hbc]
  simp

theorem accumulate_counts (cents : CTable) (pts : List Point) (a : Agg) (c : ℕ) :
    (accumulate cents pts a).counts c
      = a.counts c + (assignedPts cents c pts).length := by
  induction pts generalizing a with
  | nil => simp [accumulate, assignedPts]
  | cons p l ih =>
    simp only [accumulate, List.foldl_cons] at ih ⊢
    rw [ih]
    by_cases hb : bestClusterDpu cents p = c
    · subst hb
      simp [assignedPts, addPoint, addPointAt, Function.update_apply,
        List.filter_cons]
      omega
    · simp [assignedPts, addPoint, addPointAt, Function.update_apply,
        List.filter_cons, hb, Ne.symm hb]

theorem accumulate_sums (cents : CTable) (pts : List Point) (a : Agg) (c : ℕ) :
    (accumulate cents pts a).sums c
      = (assignedPts cents c pts).foldl vecAdd (a.sums c) := by
  induction pts generalizing a with
  | nil => simp [accumulate, assignedPts]
  | cons p l ih =>
    simp only [accumulate, List.foldl_cons] at ih ⊢
    rw [ih]
    by_cases hb : bestClusterDpu cents p = c
    · subst hb
      simp [assignedPts, addPoint, addPointAt, Function.update_apply,
        List.filter_cons]
    · simp [assignedPts, addPoint, addPointAt, Function.update_apply,
        List.filter_cons, hb, Ne.symm hb]

theorem vecAdd_assoc (u v w : Point) :
    vecAdd (vecAdd u v) w = vecAdd u (vecAdd v w) := by
  simp only [vecAdd]
  induction u generalizing v w with
  | nil => simp
  | cons x u ih =>
    cases v with
    | nil => simp
    | cons y v =>
      cases w with
      | nil => simp
      | cons z w => simp [ih, add_assoc]

theorem vecAdd_zero_left (u : Point) :
    vecAdd (List.replicate u.length 0) u = u := by
  induction u with
  | nil => rfl
  | cons x u ih => simp [vecAdd, List.replicate_succ] at ih ⊢; exact ih

theorem vecAdd_zero_right (u : Point) :
    vecAdd u (List.replicate u.length 0) = u := by
  induction u with
  | nil => rfl
  | cons x u ih => simp [vecAdd, List.replicate_succ] at ih ⊢; exact ih

theorem vecAdd_length (u v : Point) :
    (vecAdd u v).length = min u.length v.length := by
  simp [vecAdd]

theorem foldl_vecAdd_length (D : ℕ) (l : List Point) (v : Point)
    (hv : v.length = D) (hl : ∀ x ∈ l, x.length = D) :
    (l.foldl vecAdd v).length = D := by
  induction l generalizing v with
  | nil => simpa using hv
  | cons x l ih =>
    simp only [List.foldl_cons]
    exact ih (vecAdd v x)
      (by rw [vecAdd_length, hv, hl x (by simp)]; omega)
      (fun y hy => hl y (by simp [hy]))

theorem vecSum_length (D : ℕ) (l : List Point) (hl : ∀ x ∈ l, x.length = D) :
    (vecSum D l).length = D :=
  foldl_vecAdd_length D l _ (List.length_replicate _ _) hl

theorem foldl_vecAdd_eq (D : ℕ) (l : List Point) (v : Point)
    (hv : v.length = D) (hl : ∀ x ∈ l, x.length = D) :
    l.foldl vecAdd v = vecAdd v (vecSum D l) := by
  induction l generalizing v with
  | nil =>
    simp only [List.foldl_nil, vecSum]
    rw [← hv, vecAdd_zero_right]
  | cons x l ih =>
    have hx : x.length = D := hl x (by simp)
    have htail : ∀ y ∈ l, y.length = D := fun y hy => hl y (by simp [hy])
    simp only [List.foldl_cons]
    rw [ih (vecAdd v x) (by rw [vecAdd_length, hv, hx]; omega) htail]
    have hsum : vecSum D (x :: l) = vecAdd x (vecSum D l) := by
      simp only [vecSum, List.foldl_cons]
      rw [← hx, vecAdd_zero_left, hx]
      exact ih x hx htail
    rw [hsum, vecAdd_assoc]

theorem vecSum_cons (D : ℕ) (x : Point) (l : List Point) (hx : x.length = D)
    (hl : ∀ y ∈ l, y.length = D) :
    vecSum D (x :: l) = vecAdd x (vecSum D l) := by
  simp only [vecSum, List.foldl_cons]
  rw [← hx, vecAdd_zero_left, hx]
  exact foldl_vecAdd_eq D l x hx hl

theorem vecSum_append (D : ℕ) (l₁ l₂ : List Point)
    (h₁ : ∀ x ∈ l₁, x.length = D) (h₂ : ∀ x ∈ l₂, x.length = D) :
    vecSum D (l₁ ++ l₂) = vecAdd (vecSum D l₁) (vecSum D l₂) := by
  simp only [vecSum, List.foldl_append]
  exact foldl_vecAdd_eq D l₂ (l₁.foldl vecAdd (List.replicate D 0))
    (foldl_vecAdd_length D l₁ _ (List.length_replicate _ _) h₁) h₂

theorem taskletStart_succ (n W t : ℕ) :
    taskletStart n W (t + 1) = taskletEnd n W t := by
  simp only [taskletStart, taskletEnd]
  rw [Nat.succ_mul]
  rcases lt_or_ge t (n % W) with h | h
  · rw [if_pos h, min_eq_left (by omega), min_eq_left (by omega)]
    omega
  · rw [if_neg (by omega), min_eq_right h, min_eq_right (by omega)]
    omega

theorem taskletStart_top (n W : ℕ) (hW : 1 ≤ W) : taskletStart n W W = n := by
  simp only [taskletStart]
  rw [min_eq_right (le_of_lt (Nat.mod_lt n (by omega)))]
  exact Nat.div_add_mod n W

/-- The first `m` tasklet sub-ranges concatenate to the first
`taskletStart n W m` points of the block. -/
theorem subRange_join_take (pts : List Point) (W m : ℕ) :
    ((List.range m).map fun t => subRange pts W t).flatten
      = pts.take (taskletStart pts.length W m) := by
  induction m with
  | zero => simp [taskletStart]
  | succ m ih =>
    rw [List.range_succ, List.map_append, List.flatten_append, ih]
    simp only [List.map_cons, List.map_nil, List.flatten_cons, List.flatten_nil,
      List.append_nil]
    rw [subRange, taskletStart_succ]
    have hle : taskletStart pts.length W m ≤ taskletEnd pts.length W m := by
      simp only [taskletEnd]
      exact le_trans (Nat.le_add_right _ _) (Nat.le_add_right _ _)
    have hsplit : taskletEnd pts.length W m
        = taskletStart pts.length W m
          + (taskletEnd pts.length W m - taskletStart pts.length W m) := by
      omega
    conv_rhs => rw [hsplit, List.take_add]

/-- The `W` tasklet sub-ranges tile the unit's whole block. -/
theorem subRange_join (pts : List Point) (W : ℕ) (hW : 1 ≤ W) :
    ((List.range W).map fun t => subRange pts W t).flatten = pts := by
  rw [subRange_join_take, taskletStart_top pts.length W hW, List.take_length]

theorem accumulate_append (cents : CTable) (l₁ l₂ : List Point) (a : Agg) :
    accumulate cents (l₁ ++ l₂) a
      = accumulate cents l₂ (accumulate cents l₁ a) := by
  simp [accumulate]

/-- With a positive burst size and enough fuel, the burst-wise walk of the
kernel produces exactly the sequential accumulation: the bursts are
non-overlapping, cover the sub-range in index order, and no point is
skipped or revisited. -/
theorem processBatchedAux_eq (cents : CTable) (B : ℕ) (hB : 1 ≤ B)
    (fuel : ℕ) : ∀ (pts : List Point) (a : Agg), pts.length ≤ fuel →
    processBatchedAux cents B fuel pts a = accumulate cents pts a := by
  induction fuel with
  | zero =>
    intro pts a h
    have : pts = [] := List.eq_nil_of_length_eq_zero (by omega)
    subst this
    rfl
  | succ fuel ih =>
    intro pts a h
    rw [processBatchedAux]
    by_cases hp : pts.isEmpty
    · rw [if_pos hp]
      have : pts = [] := List.isEmpty_iff.1 hp
      subst this
      rfl
    · rw [if_neg hp]
      have hne : pts ≠ [] := by simpa [List.isEmpty_iff] using hp
      have hpos : 1 ≤ pts.length := List.length_pos.2 hne
      have hlen : (pts.drop B).length ≤ fuel := by
        rw [List.length_drop]
        omega
      rw [ih (pts.drop B) (accumulate cents (pts.take B) a) hlen,
        ← accumulate_append, List.take_append_drop]

theorem processBatched_eq (cents : CTable) (B : ℕ) (hB : 1 ≤ B)
    (pts : List Point) (a : Agg) :
    processBatched cents B pts a = accumulate cents pts a :=
  processBatchedAux_eq cents B hB pts.length pts a le_rfl

/-- The burst size is positive whenever `1 ≤ D ≤ MAX_FEATURES`. -/
theorem burstPoints_pos (D : ℕ) (hD : 1 ≤ D) (hD16 : D ≤ MAX_FEATURES) :
    1 ≤ burstPoints D := by
  have h : 2048 / 2048 ≤ 2048 / (D * 8) :=
    Nat.div_le_div_left (by simp only [MAX_FEATURES] at hD16; omega) (by omega)
  have h1 : (2048 : ℕ) / 2048 = 1 := by norm_num
  rw [h1] at h
  simpa [burstPoints] using h

theorem foldl_aggAdd_counts (g : ℕ → Agg) (ts : List ℕ) (a0 : Agg) (c : ℕ) :
    ((ts.foldl (fun acc t => aggAdd acc (g t)) a0).counts c)
      = a0.counts c + ((ts.map fun t => (g t).counts c).sum) := by
  induction ts generalizing a0 with
  | nil => simp
  | cons t ts ih =>
    simp only [List.foldl_cons, List.map_cons, List.sum_cons]
    rw [ih]
    simp [aggAdd, add_assoc]

theorem foldl_aggAdd_sums (g : ℕ → Agg) (ts : List ℕ) (a0 : Agg) (c : ℕ) :
    ((ts.foldl (fun acc t => aggAdd acc (g t)) a0).sums c)
      = ((ts.map fun t => (g t).sums c).foldl vecAdd (a0.sums c)) := by
  induction ts generalizing a0 with
  | nil => simp
  | cons t ts ih =>
    simp only [List.foldl_cons, List.map_cons]
    rw [ih]
    simp [aggAdd]

theorem assignedPts_append (cents : CTable) (c : ℕ) (l₁ l₂ : List Point) :
    assignedPts cents c (l₁ ++ l₂)
      = assignedPts cents c l₁ ++ assignedPts cents c l₂ := by
  simp [assignedPts]

theorem assignedPts_join (cents : CTable) (c : ℕ) (L : List (List Point)) :
    assignedPts cents c L.flatten = (L.map (assignedPts cents c)).flatten := by
  induction L with
  | nil => simp [assignedPts]
  | cons l L ih => simp [assignedPts_append, ih]

theorem assignedPts_subset (cents : CTable) (c : ℕ) (pts : List Point)
    (x : Point) (hx : x ∈ assignedPts cents c pts) : x ∈ pts :=
  (List.mem_filter.1 hx).1

theorem subRange_subset (pts : List Point) (W t : ℕ) (x : Point)
    (hx : x ∈ subRange pts W t) : x ∈ pts := by
  simp only [subRange] at hx
  exact List.mem_of_mem_drop (List.mem_of_mem_take hx)

theorem accumulate_zero_counts (cents : CTable) (pts : List Point) (D c : ℕ) :
    (accumulate cents pts (zeroAgg D)).counts c
      = (assignedPts cents c pts).length := by
  rw [accumulate_counts]
  simp [zeroAgg]

theorem accumulate_zero_sums (cents : CTable) (pts : List Point) (D c : ℕ) :
    (accumulate cents pts (zeroAgg D)).sums c
      = vecSum D (assignedPts cents c pts) := by
  rw [accumulate_sums]
  simp [zeroAgg, vecSum]

theorem taskletAgg_eq (cents : CTable) (pts : List Point) (W D t : ℕ)
    (hD : 1 ≤ D) (hD16 : D ≤ MAX_FEATURES) :
    taskletAgg cents pts W D t
      = accumulate cents (subRange pts W t) (zeroAgg D) :=
  processBatched_eq cents _ (burstPoints_pos D hD hD16) _ _

theorem range_eq_cons (W : ℕ) (hW : 1 ≤ W) :
    List.range W = 0 :: List.range' 1 (W - 1) := by
  rw [List.range_eq_range']
  cases W with
  | zero => omega
  | succ m => rw [List.range'_succ]; simp

/-- The merged counts of the unit equal the per-cluster point counts of
the whole block: neither the split across tasklets nor the bursts change
them. -/
theorem dpuMerged_counts (cents : CTable) (pts : List Point) (W D c : ℕ)
    (hW : 1 ≤ W) (hD : 1 ≤ D) (hD16 : D ≤ MAX_FEATURES) :
    (dpuMerged cents pts W D).counts c = (assignedPts cents c pts).length := by
  unfold dpuMerged
  rw [foldl_aggAdd_counts]
  have ht : ∀ t, (taskletAgg cents pts W D t).counts c
      = (assignedPts cents c (subRange pts W t)).length := fun t => by
    rw [taskletAgg_eq cents pts W D t hD hD16, accumulate_zero_counts]
  rw [ht 0, List.map_congr_left (fun t _ => ht t)]
  have hjoin : ((List.range W).map
      fun t => (assignedPts cents c (subRange pts W t)).length).sum
      = (assignedPts cents c pts).length := by
    conv_rhs => rw [← subRange_join pts W hW]
    rw [assignedPts_join, List.length_flatten]
    simp [List.map_map, Function.comp_def]
  rw [range_eq_cons W hW] at hjoin
  simpa using hjoin

theorem foldl_vecSum_flatten (D : ℕ) (L : List (List Point)) (v : Point)
    (hv : v.length = D) (hL : ∀ l ∈ L, ∀ x ∈ l, x.length = D) :
    (L.map (vecSum D)).foldl vecAdd v = vecAdd v (vecSum D L.flatten) := by
  induction L generalizing v with
  | nil =>
    simp only [List.map_nil, List.foldl_nil, List.flatten_nil, vecSum,
      List.foldl_nil]
    rw [← hv, vecAdd_zero_right]
  | cons l L ih =>
    have hl : ∀ x ∈ l, x.length = D := hL l (by simp)
    have hLtail : ∀ l2 ∈ L, ∀ x ∈ l2, x.length = D :=
      fun l2 h2 => hL l2 (by simp [h2])
    have hflat : ∀ x ∈ L.flatten, x.length = D := by
      intro x hx
      obtain ⟨l2, hl2, hxl2⟩ := List.mem_flatten.1 hx
      exact hLtail l2 hl2 x hxl2
    simp only [List.map_cons, List.foldl_cons]
    rw [ih (vecAdd v (vecSum D l))
      (by rw [vecAdd_length, hv, vecSum_length D l hl]; omega)
      hLtail]
    rw [vecAdd_assoc, ← vecSum_append D l L.flatten hl hflat,
      List.flatten_cons]

/-- The merged sum vectors of the unit equal the per-cluster feature sums
over the whole block. -/
theorem dpuMerged_sums (cents : CTable) (pts : List Point) (W D c : ℕ)
    (hW : 1 ≤ W) (hD : 1 ≤ D) (hD16 : D ≤ MAX_FEATURES)
    (hlen : ∀ p ∈ pts, p.length = D) :
    (dpuMerged cents pts W D).sums c = vecSum D (assignedPts cents c pts) := by
  unfold dpuMerged
  rw [foldl_aggAdd_sums]
  have ht : ∀ t, (taskletAgg cents pts W D t).sums c
      = vecSum D (assignedPts cents c (subRange pts W t)) := fun t => by
    rw [taskletAgg_eq cents pts W D t hD hD16, accumulate_zero_sums]
  rw [ht 0, List.map_congr_left (fun t _ => ht t)]
  have hlen2 : ∀ t (x : Point),
      x ∈ assignedPts cents c (subRange pts W t) → x.length = D :=
    fun t x hx =>
      hlen x (subRange_subset pts W t x (assignedPts_subset cents c _ x hx))
  rw [show ((List.range' 1 (W - 1)).map
        fun t => vecSum D (assignedPts cents c (subRange pts W t)))
      = (((List.range' 1 (W - 1)).map
        fun t => assignedPts cents c (subRange pts W t)).map (vecSum D)) by
    simp [List.map_map, Function.comp_def]]
  rw [foldl_vecSum_flatten D _ _
    (vecSum_length D _ (hlen2 0))
    (by
      intro l hl x hx
      obtain ⟨t, -, rfl⟩ := List.mem_map.1 hl
      exact hlen2 t x hx)]
  rw [← vecSum_append D _ _ (hlen2 0)
    (by
      intro x hx
      obtain ⟨l, hl, hxl⟩ := List.mem_flatten.1 hx
      obtain ⟨t, -, rfl⟩ := List.mem_map.1 hl
      exact hlen2 t x hxl)]
  rw [← List.flatten_cons]
  have hmap : assignedPts cents c (subRange pts W 0)
      :: (List.range' 1 (W - 1)).map
        (fun t => assignedPts cents c (subRange pts W t))
      = (List.range W).map (fun t => assignedPts cents c (subRange pts W t)) := by
    rw [range_eq_cons W hW, List.map_cons]
  rw [hmap]
  have hmm : (List.range W).map (fun t => assignedPts cents c (subRange pts W t))
      = ((List.range W).map fun t => subRange pts W t).map
        (assignedPts cents c) := by
    simp [List.map_map, Function.comp_def]
  rw [hmm, ← assignedPts_join]
  rw [show ((List.range W).map fun t => subRange pts W t).flatten = pts from
    subRange_join pts W hW]

/-- Under the in-range hypothesis, the CPU reference's assignment phase
never takes the error exit and produces exactly the kernel's sequential
aggregate. -/
theorem cpuAccumulate_eq (cents : CTable) (pts : List Point) (D : ℕ)
    (hrange : ∀ p ∈ pts, ∃ c ∈ cents, sqDist p c < SENTINEL) :
    cpuAccumulate cents pts D = some (accumulate cents pts (zeroAgg D)) := by
  suffices h : ∀ (l : List Point),
      (∀ p ∈ l, ∃ c ∈ cents, sqDist p c < SENTINEL) →
      ∀ a : Agg, l.foldl (cpuStep cents) (some a)
        = some (accumulate cents l a) from
    h pts hrange (zeroAgg D)
  intro l
  induction l with
  | nil => intro _ a; rfl
  | cons p l ih =>
    intro hr a
    have hp := bestCluster_eq cents p (hr p (by simp))
    simp only [List.foldl_cons]
    rw [show cpuStep cents (some a) p = some (addPoint cents a p) by
      simp only [cpuStep, Option.some_bind]
      rw [if_neg (by rw [hp]; exact not_lt.2 (Int.natCast_nonneg _))]
      rw [show (bestClusterCpu cents p).toNat = bestClusterDpu cents p by
        rw [hp]; exact Int.toNat_natCast _]
      rfl]
    exact ih (fun q hq => hr q (by simp [hq])) (addPoint cents a p)

theorem offset_closed (N U : ℕ) : ∀ i, offset N U i = i * (N / U) + min i (N % U) := by
  intro i
  induction i with
  | zero => simp [offset]
  | succ i ih =>
    rw [offset, ih, count, Nat.succ_mul]
    rcases lt_or_ge i (N % U) with h | h
    · rw [if_pos h, min_eq_left (by omega), min_eq_left (by omega)]
      omega
    · rw [if_neg (by omega), min_eq_right h, min_eq_right (by omega)]
      omega

theorem offset_top (N U : ℕ) (hU : 1 ≤ U) : offset N U U = N := by
  rw [offset_closed, min_eq_right (le_of_lt (Nat.mod_lt N (by omega)))]
  exact Nat.div_add_mod N U

theorem sum_counts (N U : ℕ) :
    ∀ m, ((List.range m).map (count N U)).sum = offset N U m := by
  intro m
  induction m with
  | zero => simp [offset]
  | succ m ih =>
    rw [List.range_succ, List.map_append, List.sum_append, ih]
    simp [offset]

theorem offset_mono (N U : ℕ) {i j : ℕ} (h : i ≤ j) :
    offset N U i ≤ offset N U j := by
  induction j with
  | zero =>
    have : i = 0 := by omega
    subst this
    exact le_rfl
  | succ j ih =>
    rcases Nat.lt_or_ge i (j + 1) with h2 | h2
    · exact le_trans (ih (by omega)) (by rw [offset]; omega)
    · have : i = j + 1 := by omega
      subst this
      exact le_rfl

theorem offset_locate (N U : ℕ) :
    ∀ m k, k < offset N U m →
      ∃ i, i < m ∧ offset N U i ≤ k ∧ k < offset N U (i + 1) := by
  intro m
  induction m with
  | zero => intro k hk; simp [offset] at hk
  | succ m ih =>
    intro k hk
    rcases lt_or_ge k (offset N U m) with h | h
    · obtain ⟨i, hi, h1, h2⟩ := ih k h
      exact ⟨i, by omega, h1, h2⟩
    · exact ⟨m, by omega, h, hk⟩

theorem kmeansLoop_spec (step : CTable → CTable) (thrSq : ℚ) :
    ∀ (fuel : ℕ) (ctds : CTable) (shiftSq : ℚ) (iter : ℕ),
      (kmeansLoop step thrSq fuel ctds shiftSq iter).2.2 ≤ iter + fuel ∧
      ((kmeansLoop step thrSq fuel ctds shiftSq iter).2.2 = iter + fuel ∨
        (kmeansLoop step thrSq fuel ctds shiftSq iter).2.1 ≤ thrSq) := by
  intro fuel
  induction fuel with
  | zero => intro c s i; simp [kmeansLoop]
  | succ fuel ih =>
    intro c s i
    rw [kmeansLoop]
    by_cases h : thrSq < s
    · rw [if_pos h]
      obtain ⟨h1, h2⟩ := ih (step c) (frobSq c (step c)) (i + 1)
      refine ⟨by omega, ?_⟩
      rcases h2 with h2 | h2
      · left; omega
      · right; exact h2
    · rw [if_neg h]
      exact ⟨by simp, Or.inr (not_lt.1 h)⟩

theorem wrap64_eq_self (x : ℤ) (h1 : -(2 ^ 63) ≤ x) (h2 : x < 2 ^ 63) :
    wrap64 x = x := by
  have he : (2 : ℤ) ^ 64 = 2 * 2 ^ 63 := by ring
  unfold wrap64
  rw [Int.emod_eq_of_lt (by linarith) (by linarith)]
  ring

theorem foldl_wrap64_eq (l : List ℤ) : ∀ acc : ℤ, 0 ≤ acc →
    (∀ t ∈ l, 0 ≤ t ∧ t < 2 ^ 32) → acc + l.sum < 2 ^ 63 →
    l.foldl (fun acc t => wrap64 (acc + t)) acc = acc + l.sum := by
  induction l with
  | nil => intro acc _ _ _; simp
  | cons t l ih =>
    intro acc hacc hb hcap
    have ht := hb t (by simp)
    have hsum : 0 ≤ l.sum :=
      List.sum_nonneg fun x hx => (hb x (by simp [hx])).1
    simp only [List.sum_cons] at hcap
    simp only [List.foldl_cons, List.sum_cons]
    rw [wrap64_eq_self (acc + t) (by linarith [ht.1]) (by linarith [ht.1])]
    rw [ih (acc + t) (by linarith [ht.1])
      (fun x hx => hb x (by simp [hx])) (by linarith)]
    ring

theorem zipSq_bounds (M : ℤ) (_hM : 0 ≤ M) :
    ∀ (p c : List ℤ),
      (∀ x ∈ p, -M ≤ x ∧ x < M) → (∀ x ∈ c, -M ≤ x ∧ x < M) →
      ∀ t ∈ List.zipWith (fun a b => (a - b) * (a - b)) p c,
        0 ≤ t ∧ t < 4 * M ^ 2 := by
  intro p
  induction p with
  | nil => intro c _ _ t ht; simp at ht
  | cons a p ih =>
    intro c hp hc t ht
    cases c with
    | nil => simp at ht
    | cons b c =>
      simp only [List.zipWith_cons_cons, List.mem_cons] at ht
      rcases ht with rfl | ht
      · have ha := hp a (by simp)
        have hb := hc b (by simp)
        constructor
        · exact mul_self_nonneg _
        · nlinarith [ha.1, ha.2, hb.1, hb.2, mul_self_nonneg (a - b)]
      · exact ih c (fun x hx => hp x (by simp [hx]))
          (fun x hx => hc x (by simp [hx])) t ht

theorem sum_le_card_mul (l : List ℤ) (B : ℤ) (h : ∀ t ∈ l, t ≤ B) :
    l.sum ≤ (l.length : ℤ) * B := by
  induction l with
  | nil => simp
  | cons t l ih =>
    simp only [List.sum_cons, List.length_cons]
    have h1 := h t (by simp)
    have h2 := ih fun x hx => h x (by simp [hx])
    push_cast
    nlinarith

theorem range_map_getD (K c : ℕ) (f : ℕ → Point) (hc : c < K) :
    ((List.range K).map f).getD c [] = f c := by
  rw [List.getD_eq_getElem _ _ (by simpa using hc)]
  simp

/-- The kernel's choice is always a valid cluster index when `K ≥ 1`. -/
theorem bestClusterDpu_lt (cents : CTable) (p : Point)
    (hK : 1 ≤ cents.length) : bestClusterDpu cents p < cents.length := by
  by_cases h : ∃ c ∈ cents, sqDist p c < SENTINEL
  · obtain ⟨j, hj, hbc, -⟩ := scanBest_spec p cents SENTINEL 0 0 h
    unfold bestClusterDpu
    rw [hbc]
    simpa using hj
  · push_neg at h
    unfold bestClusterDpu
    rw [scanBest_no_update p cents SENTINEL 0 0 (fun c hc => h c hc)]
    simpa using hK

/-- The per-cluster point counts over all `K` clusters sum to the number
of points: every point is assigned to exactly one valid cluster. -/
theorem sum_assigned (cents : CTable) (pts : List Point)
    (hK : 1 ≤ cents.length) :
    (∑ c ∈ Finset.range cents.length, (assignedPts cents c pts).length)
      = pts.length := by
  induction pts with
  | nil => simp [assignedPts]
  | cons p l ih =>
    have hb : bestClusterDpu cents p < cents.length :=
      bestClusterDpu_lt cents p hK
    have hsplit : ∀ c, (assignedPts cents c (p :: l)).length
        = (if bestClusterDpu cents p = c then 1 else 0)
          + (assignedPts cents c l).length := by
      intro c
      by_cases h : bestClusterDpu cents p = c
      · simp [assignedPts, List.filter_cons, h]
        omega
      · simp [assignedPts, List.filter_cons, h]
    rw [Finset.sum_congr rfl fun c _ => hsplit c, Finset.sum_add_distrib,
      Finset.sum_ite_eq, if_pos (Finset.mem_range.2 hb), ih]
    simp [Nat.add_comm]

/-- C2: for every total point count `N` and unit count `U ≥ 1`, the
partitioner produces exactly `U` blocks with
`count[i] = N/U + (1 if i < N mod U else 0)`, `offset[0] = 0` and
`offset[i+1] = offset[i] + count[i]`; the counts sum to `N`, any two
counts differ by at most 1, the blocks tile `[0, N)` with no gaps or
overlaps, and (being a pure function of `(N, U)`) the same inputs always
produce the same partition; for `N = 10`, `U = 3` the counts are
`{4, 3, 3}` and the offsets `{0, 4, 7}`. -/
theorem c2_partitioner (N U : ℕ) (hU : 1 ≤ U) :
    (partition N U).length = U ∧
    (∀ i, count N U i = N / U + if i < N % U then 1 else 0) ∧
    offset N U 0 = 0 ∧
    (∀ i, offset N U (i + 1) = offset N U i + count N U i) ∧
    ((List.range U).map (count N U)).sum = N ∧
    (∀ i j, i < U → j < U → count N U i ≤ count N U j + 1) ∧
    (∀ k, k < N → ∃ i, i < U ∧ offset N U i ≤ k ∧
      k < offset N U i + count N U i ∧
      ∀ i2, i2 < U → offset N U i2 ≤ k →
        k < offset N U i2 + count N U i2 → i2 = i) ∧
    partition 10 3 = [(4, 0), (3, 4), (3, 7)] := by
  refine ⟨by simp [partition], fun i => rfl, rfl, fun i => rfl, ?_, ?_, ?_, by rfl⟩
  · rw [sum_counts, offset_top N U hU]
  · intro i j _ _
    simp only [count]
    split_ifs <;> omega
  · intro k hk
    have hk2 : k < offset N U U := by rw [offset_top N U hU]; exact hk
    obtain ⟨i, hi, h1, h2⟩ := offset_locate N U U k hk2
    rw [offset] at h2
    refine ⟨i, hi, h1, h2, ?_⟩
    intro i2 hi2 g1 g2
    by_contra hne
    rcases Nat.lt_or_ge i2 i with hlt | hge
    · have hm := offset_mono N U (show i2 + 1 ≤ i by omega)
      have hu : offset N U (i2 + 1) = offset N U i2 + count N U i2 := by
        rw [offset]
      omega
    · have hm := offset_mono N U (show i + 1 ≤ i2 by omega)
      have hu : offset N U (i + 1) = offset N U i + count N U i := by
        rw [offset]
      omega

/-- C2 witness: the partitioner properties instantiated at `N = 10`,
`U = 3`. -/
theorem c2_witness : 1 ≤ 3 ∧ (partition 10 3).length = 3 :=
  ⟨by decide, (c2_partitioner 10 3 (by decide)).1⟩

/-- C4: in the centroid update, a cluster whose aggregated count is zero
keeps exactly its previous centroid row; a cluster with a positive count
is set elementwise to `sum[c]/count[c]`; the table keeps its length, so
no centroid is reseeded or dropped. -/
theorem c4_empty_cluster_freeze (old : CTable) (a : Agg) (c : ℕ)
    (hc : c < old.length) :
    (updateCentroids old a).length = old.length ∧
    (a.counts c = 0 → (updateCentroids old a).getD c [] = old.getD c []) ∧
    (0 < a.counts c → (updateCentroids old a).getD c []
      = (a.sums c).map fun s => s / (a.counts c : ℚ)) := by
  refine ⟨by simp [updateCentroids], ?_, ?_⟩
  · intro h0
    simp only [updateCentroids]
    rw [range_map_getD old.length c _ hc, if_neg (by omega)]
  · intro hpos
    simp only [updateCentroids]
    rw [range_map_getD old.length c _ hc, if_pos hpos]

/-- C4 witness: on the table `[[1,2],[3,4]]` with counts `{2, 0}`, row 1
is frozen and row 0 becomes the mean. -/
theorem c4_witness :
    (1 < 2) ∧
    (updateCentroids [[(1:ℚ),2],[3,4]]
      ⟨fun _ => [8, 6], fun c => if c = 0 then 2 else 0⟩).getD 1 [] = [3, 4] ∧
    (updateCentroids [[(1:ℚ),2],[3,4]]
      ⟨fun _ => [8, 6], fun c => if c = 0 then 2 else 0⟩).getD 0 [] = [4, 3] := by
  refine ⟨by norm_num, ?_, ?_⟩
  · exact ((c4_empty_cluster_freeze [[(1:ℚ),2],[3,4]]
      ⟨fun _ => [8, 6], fun c => if c = 0 then 2 else 0⟩ 1
      (by norm_num)).2.1 (by norm_num)).trans rfl
  · exact ((c4_empty_cluster_freeze [[(1:ℚ),2],[3,4]]
      ⟨fun _ => [8, 6], fun c => if c = 0 then 2 else 0⟩ 0
      (by norm_num)).2.2 (by norm_num)).trans (by norm_num)

/-- C5: the host convergence loop is a total function (it always
terminates); its final iteration counter never exceeds `maxIter`, at
termination either the counter equals `maxIter` or the (squared) shift is
at or below the (squared) threshold, and if it stopped early the shift
condition must hold — i.e. it terminates exactly when `iter = max_iter`
or `shift ≤ threshold`. -/
theorem c5_termination (step : CTable → CTable) (thrSq : ℚ) (maxIter : ℕ)
    (init : CTable) :
    (hostRun step thrSq maxIter init).2.2 ≤ maxIter ∧
    ((hostRun step thrSq maxIter init).2.2 = maxIter ∨
      (hostRun step thrSq maxIter init).2.1 ≤ thrSq) ∧
    ((hostRun step thrSq maxIter init).2.2 < maxIter →
      (hostRun step thrSq maxIter init).2.1 ≤ thrSq) := by
  obtain ⟨h1, h2⟩ := kmeansLoop_spec step thrSq maxIter init (99999 * 99999) 0
  simp only [hostRun, Nat.zero_add] at h1 h2 ⊢
  refine ⟨h1, h2, ?_⟩
  intro hlt
  rcases h2 with h2 | h2
  · omega
  · exact h2

/-- C7: the host setup path of `main` performs no configuration
validation whatsoever: with `K = 0` (which the claim says must abort with
a ConfigError before any transfer) it still issues the point-slice and
argument transfers, and likewise with `N` exceeding `MAX_POINTS_DPU`; no
error value exists anywhere on this path. -/
theorem c7_no_validation :
    hostSetupXfers 8 2 0 1
      = [Xfer.mk "t_features" 128, Xfer.mk "DPU_INPUT_ARGUMENTS" 12] ∧
    hostSetupXfers 70000 2 2 1
      = [Xfer.mk "t_features" 1120000, Xfer.mk "DPU_INPUT_ARGUMENTS" 12] ∧
    MAX_POINTS_DPU < 70000 :=
  ⟨rfl, rfl, by norm_num [MAX_POINTS_DPU]⟩

/-- C8: under the quantized numeric policy, device features are signed
16-bit, per-cluster sums signed 64-bit (the widths declared in common.h);
the accumulator is at least twice the feature width; and when
`D × max_diff²` (with `max_diff < 2^16`) fits below `2^63`, the 64-bit
wraparound accumulation of the squared distance coincides with the exact
value, which is nonnegative — no overflow occurs. -/
theorem c8_quantized_no_overflow (p c : List ℤ)
    (hp : ∀ x ∈ p, -(2 ^ (FEATURE_BITS - 1)) ≤ x ∧ x < 2 ^ (FEATURE_BITS - 1))
    (hc : ∀ x ∈ c, -(2 ^ (FEATURE_BITS - 1)) ≤ x ∧ x < 2 ^ (FEATURE_BITS - 1))
    (hcap : (min p.length c.length : ℤ) * 2 ^ (2 * FEATURE_BITS)
      < 2 ^ (SUM_BITS - 1)) :
    FEATURE_BITS = 16 ∧ SUM_BITS = 64 ∧ 2 * FEATURE_BITS ≤ SUM_BITS ∧
    sqDistQ p c = sqDistQexact p c ∧ 0 ≤ sqDistQexact p c := by
  simp only [FEATURE_BITS, SUM_BITS] at hp hc hcap
  have hterms : ∀ t ∈ List.zipWith (fun a b => (a - b) * (a - b)) p c,
      0 ≤ t ∧ t < 2 ^ 32 := by
    intro t ht
    have h := zipSq_bounds (2 ^ 15) (by norm_num) p c hp hc t ht
    refine ⟨h.1, lt_of_lt_of_le h.2 (by norm_num)⟩
  have hlen : ((List.zipWith (fun a b : ℤ => (a - b) * (a - b)) p c).length : ℤ)
      = (min p.length c.length : ℤ) := by
    simp
  have hsum : (List.zipWith (fun a b : ℤ => (a - b) * (a - b)) p c).sum
      < 2 ^ 63 := by
    have h1 := sum_le_card_mul
      (List.zipWith (fun a b : ℤ => (a - b) * (a - b)) p c) (2 ^ 32)
      (fun t ht => (hterms t ht).2.le)
    rw [hlen] at h1
    have h2 : (min p.length c.length : ℤ) * 2 ^ 32 < 2 ^ 63 := by
      calc (min p.length c.length : ℤ) * 2 ^ 32
          = (min p.length c.length : ℤ) * 2 ^ (2 * 16) := by norm_num
        _ < 2 ^ (64 - 1) := hcap
        _ = 2 ^ 63 := by norm_num
    linarith
  refine ⟨rfl, rfl, by norm_num [FEATURE_BITS, SUM_BITS], ?_, ?_⟩
  · unfold sqDistQ sqDistQexact
    have h := foldl_wrap64_eq
      (List.zipWith (fun a b : ℤ => (a - b) * (a - b)) p c) 0 le_rfl hterms
      (by simpa using hsum)
    simpa using h
  · exact List.sum_nonneg fun t ht => (hterms t ht).1

/-- C8 witness: the quantized distance evaluated at in-range 16-bit
features. -/
theorem c8_witness :
    ((∀ x ∈ [(3:ℤ), -5], -(2 ^ (FEATURE_BITS - 1)) ≤ x ∧ x < 2 ^ (FEATURE_BITS - 1)) ∧
      (∀ x ∈ [(-2:ℤ), 7], -(2 ^ (FEATURE_BITS - 1)) ≤ x ∧ x < 2 ^ (FEATURE_BITS - 1)) ∧
      ((min 2 2 : ℤ) * 2 ^ (2 * FEATURE_BITS) < 2 ^ (SUM_BITS - 1))) ∧
    sqDistQ [(3:ℤ), -5] [(-2:ℤ), 7] = sqDistQexact [(3:ℤ), -5] [(-2:ℤ), 7] := by
  have h1 : ∀ x ∈ [(3:ℤ), -5],
      -(2 ^ (FEATURE_BITS - 1)) ≤ x ∧ x < 2 ^ (FEATURE_BITS - 1) := by
    intro x hx
    simp only [FEATURE_BITS]
    rcases List.mem_cons.1 hx with rfl | hx
    · norm_num
    · simp at hx
      subst hx
      norm_num
  have h2 : ∀ x ∈ [(-2:ℤ), 7],
      -(2 ^ (FEATURE_BITS - 1)) ≤ x ∧ x < 2 ^ (FEATURE_BITS - 1) := by
    intro x hx
    simp only [FEATURE_BITS]
    rcases List.mem_cons.1 hx with rfl | hx
    · norm_num
    · simp at hx
      subst hx
      norm_num
  have h3 : ((min 2 2 : ℤ) * 2 ^ (2 * FEATURE_BITS) < 2 ^ (SUM_BITS - 1)) := by
    norm_num [FEATURE_BITS, SUM_BITS]
  exact ⟨⟨h1, h2, h3⟩,
    (c8_quantized_no_overflow [(3:ℤ), -5] [(-2:ℤ), 7] h1 h2 (by simpa using h3)).2.2.2.1⟩

/-- C3 (amended): whenever some centroid's squared distance to the point
is below the kernel's `1e30` sentinel (true for all in-range data), the
assignment selects a centroid of minimal squared distance, ties always
broken toward the lowest index (strict `<`, first minimum wins), and the
device kernel and the CPU reference oracle agree. -/
theorem c3_tie_break (cents : CTable) (p : Point)
    (hin : ∃ c ∈ cents, sqDist p c < SENTINEL) :
    bestClusterDpu cents p < cents.length ∧
    (∀ k, k < cents.length →
      sqDist p (cents.getD (bestClusterDpu cents p) [])
        ≤ sqDist p (cents.getD k [])) ∧
    (∀ k, k < bestClusterDpu cents p →
      sqDist p (cents.getD (bestClusterDpu cents p) [])
        < sqDist p (cents.getD k [])) ∧
    bestClusterCpu cents p = (bestClusterDpu cents p : ℤ) := by
  obtain ⟨j, hj, hbc, hval, hearly, hall⟩ := scanBest_spec p cents SENTINEL 0 0 hin
  have hbest : bestClusterDpu cents p = j := by
    unfold bestClusterDpu
    rw [hbc]
    simp
  refine ⟨hbest ▸ hj, ?_, ?_, bestCluster_eq cents p hin⟩
  · intro k hk
    rw [hbest, hval]
    exact hall k hk
  · intro k hk
    rw [hbest, hval]
    exact hearly k (hbest ▸ hk)

/-- C3 counterexample: with `K = 2` centroids at exact squared distances
`10^32` and `4·10^30` from the point — both at or above the kernel's
`1e30` sentinel — the kernel keeps its initial `best_cl = 0` although
centroid 1 is strictly nearer, so the claim as stated (minimal distance
always selected) is false for the device kernel. -/
theorem c3_cex :
    bestClusterDpu [[(10:ℚ) ^ 16], [-2 * 10 ^ 15]] [0] = 0 ∧
    sqDist [0] [(-2:ℚ) * 10 ^ 15] < sqDist [0] [(10:ℚ) ^ 16] := by
  constructor
  · norm_num [bestClusterDpu, scanBest, sqDist, SENTINEL]
  · norm_num [sqDist]

/-- C3 witness: the amended tie-break theorem at a concrete equidistant
pair, where the lower index wins in both kernel and oracle. -/
theorem c3_witness :
    (∃ c ∈ ([[(1:ℚ)], [-1]] : CTable), sqDist [0] c < SENTINEL) ∧
    bestClusterDpu [[(1:ℚ)], [-1]] [0] = 0 ∧
    bestClusterCpu [[(1:ℚ)], [-1]] [0] = 0 := by
  have hin : ∃ c ∈ ([[(1:ℚ)], [-1]] : CTable), sqDist [0] c < SENTINEL :=
    ⟨[1], by simp, by norm_num [sqDist, SENTINEL]⟩
  have h := c3_tie_break [[(1:ℚ)], [-1]] [0] hin
  have hd : bestClusterDpu [[(1:ℚ)], [-1]] [0] = 0 := by
    norm_num [bestClusterDpu, scanBest, sqDist, SENTINEL]
  exact ⟨hin, hd, by rw [h.2.2.2, hd]; rfl⟩

/-- C10 (amended): in `cpu_reference_kmeans`, whenever `n_clusters ≥ 1`
and each point's exact squared distance to centroid 0 is below `DBL_MAX`
(guaranteed when `D × max_diff²` stays below `DBL_MAX`), the strict `<`
against the `DBL_MAX` initialisation fires at least once, so `best_cl` is
always non-negative and the negative-assignment error exit is
unreachable. -/
theorem c10_error_unreachable (cents : CTable) (pts : List Point) (D : ℕ)
    (hK : 1 ≤ cents.length)
    (h : ∀ p ∈ pts, sqDist p (cents.getD 0 []) < DBL_MAX) :
    (∀ p ∈ pts, 0 ≤ bestClusterCpu cents p) ∧
    (cpuAccumulate cents pts D).isSome := by
  have hmem : cents.getD 0 [] ∈ cents := getD_mem cents 0 (by omega)
  have hbp : ∀ p ∈ pts, 0 ≤ bestClusterCpu cents p := by
    intro p hp
    obtain ⟨j, hj, hbc, -⟩ :=
      scanBest_spec p cents DBL_MAX (-1) 0 ⟨_, hmem, h p hp⟩
    unfold bestClusterCpu
    rw [hbc]
    simp
  refine ⟨hbp, ?_⟩
  suffices h2 : ∀ (l : List Point), (∀ p ∈ l, 0 ≤ bestClusterCpu cents p) →
      ∀ a : Agg, (l.foldl (cpuStep cents) (some a)).isSome from
    h2 pts hbp (zeroAgg D)
  intro l
  induction l with
  | nil => intro _ a; rfl
  | cons q l ih =>
    intro hl a
    simp only [List.foldl_cons]
    rw [show cpuStep cents (some a) q
        = some (addPointAt a (bestClusterCpu cents q).toNat q) by
      simp only [cpuStep, Option.some_bind]
      rw [if_neg (not_lt.2 (hl q (by simp)))]]
    exact ih (fun r hr => hl r (by simp [hr])) _

/-- C10 counterexample: with `n_clusters = 1` and the (finite) point
`2^512`, the exact squared distance to centroid 0 is `2^1024 ≥ DBL_MAX`
(in the C code the squaring overflows to infinity), the strict `<` never
fires, `best_cl` stays `-1` and the error exit is taken — so the claim
that the branch is unreachable for all finite features is false. -/
theorem c10_cex :
    1 ≤ ([[(0:ℚ)]] : CTable).length ∧
    bestClusterCpu [[(0:ℚ)]] [2 ^ 512] = -1 ∧
    cpuAccumulate [[(0:ℚ)]] [[2 ^ 512]] 1 = none := by
  refine ⟨by norm_num, ?_, ?_⟩
  · norm_num [bestClusterCpu, scanBest, sqDist, DBL_MAX]
  · norm_num [cpuAccumulate, cpuStep, bestClusterCpu, scanBest, sqDist, DBL_MAX]

/-- C10 witness: the amended theorem at a concrete in-range input. -/
theorem c10_witness :
    (1 ≤ ([[(0:ℚ), 0], [10, 0]] : CTable).length ∧
      (∀ p ∈ [[(3:ℚ), 4]],
        sqDist p (([[(0:ℚ), 0], [10, 0]] : CTable).getD 0 []) < DBL_MAX)) ∧
    (cpuAccumulate [[(0:ℚ), 0], [10, 0]] [[(3:ℚ), 4]] 2).isSome := by
  have hK : 1 ≤ ([[(0:ℚ), 0], [10, 0]] : CTable).length := by norm_num
  have h : ∀ p ∈ [[(3:ℚ), 4]],
      sqDist p (([[(0:ℚ), 0], [10, 0]] : CTable).getD 0 []) < DBL_MAX := by
    intro p hp
    simp only [List.mem_singleton] at hp
    subst hp
    norm_num [sqDist, DBL_MAX]
  exact ⟨⟨hK, h⟩,
    (c10_error_unreachable [[(0:ℚ), 0], [10, 0]] [[(3:ℚ), 4]] 2 hK h).2⟩

/-- C1 (amended): for a fixed point set and centroid table, with
`1 ≤ W`, `1 ≤ D ≤ MAX_FEATURES`, all points of dimension `D`, and — for
the CPU-oracle comparison — every point having some centroid within the
kernel's `1e30` sentinel (true for all in-range data): the per-cluster
aggregate (sum vector, count) is identical whether computed by a single
worker over the whole block, by `W` workers with private accumulators
merged in order after the barrier with reads batched into bursts of at
most `B = burstPoints D` points, or by bursts alone; and the merged
multi-tasklet batched DPU aggregate equals the serial CPU-reference
aggregate. -/
theorem c1_reduction_invariance (cents : CTable) (pts : List Point)
    (W D : ℕ) (hW : 1 ≤ W) (hD : 1 ≤ D) (hD16 : D ≤ MAX_FEATURES)
    (hlen : ∀ p ∈ pts, p.length = D)
    (hrange : ∀ p ∈ pts, ∃ c ∈ cents, sqDist p c < SENTINEL) :
    (∀ c, (dpuMerged cents pts W D).counts c
      = (accumulate cents pts (zeroAgg D)).counts c) ∧
    (∀ c, (dpuMerged cents pts W D).sums c
      = (accumulate cents pts (zeroAgg D)).sums c) ∧
    (∀ c, (processBatched cents (burstPoints D) pts (zeroAgg D)).counts c
      = (accumulate cents pts (zeroAgg D)).counts c) ∧
    (∀ c, (processBatched cents (burstPoints D) pts (zeroAgg D)).sums c
      = (accumulate cents pts (zeroAgg D)).sums c) ∧
    cpuAccumulate cents pts D = some (accumulate cents pts (zeroAgg D)) := by
  have hb := processBatched_eq cents (burstPoints D)
    (burstPoints_pos D hD hD16) pts (zeroAgg D)
  refine ⟨?_, ?_, fun c => by rw [hb], fun c => by rw [hb],
    cpuAccumulate_eq cents pts D hrange⟩
  · intro c
    rw [dpuMerged_counts cents pts W D c hW hD hD16, accumulate_zero_counts]
  · intro c
    rw [dpuMerged_sums cents pts W D c hW hD hD16 hlen, accumulate_zero_sums]

/-- C1 counterexample: at a point whose squared distances to both
centroids are at or above the kernel's `1e30` sentinel, the merged DPU
aggregate counts the point in cluster 0 while the CPU reference counts it
in cluster 1, so the DPU-kernel aggregate does not always equal the
CPU-reference aggregate as the claim states. -/
theorem c1_cex :
    (dpuMerged [[(10:ℚ) ^ 16], [-2 * 10 ^ 15]] [[0]] 1 1).counts 0 = 1 ∧
    Option.map (fun a => a.counts 0)
      (cpuAccumulate [[(10:ℚ) ^ 16], [-2 * 10 ^ 15]] [[0]] 1) = some 0 := by
  constructor
  · norm_num [dpuMerged, taskletAgg, processBatched, processBatchedAux,
      subRange, taskletStart, taskletEnd, burstPoints, accumulate, addPoint,
      addPointAt, bestClusterDpu, scanBest, sqDist, SENTINEL, zeroAgg,
      Function.update_apply]
  · norm_num [cpuAccumulate, cpuStep, bestClusterCpu, scanBest, sqDist,
      DBL_MAX, addPointAt, zeroAgg, Function.update_apply]

/-- C1 witness: the amended equivalence at a concrete two-point,
two-tasklet instance. -/
theorem c1_witness :
    ((1 ≤ 2) ∧ (1 ≤ 2) ∧ (2 ≤ MAX_FEATURES) ∧
      (∀ p ∈ [[(0:ℚ), 0], [10, 11]], p.length = 2) ∧
      (∀ p ∈ [[(0:ℚ), 0], [10, 11]],
        ∃ c ∈ ([[(0:ℚ), 0], [10, 0]] : CTable), sqDist p c < SENTINEL)) ∧
    (dpuMerged [[(0:ℚ), 0], [10, 0]] [[(0:ℚ), 0], [10, 11]] 2 2).counts 1
      = (accumulate [[(0:ℚ), 0], [10, 0]] [[(0:ℚ), 0], [10, 11]]
          (zeroAgg 2)).counts 1 := by
  have hlen : ∀ p ∈ [[(0:ℚ), 0], [10, 11]], p.length = 2 := by
    intro p hp
    rcases List.mem_cons.1 hp with rfl | hp
    · rfl
    · simp at hp
      subst hp
      rfl
  have hrange : ∀ p ∈ [[(0:ℚ), 0], [10, 11]],
      ∃ c ∈ ([[(0:ℚ), 0], [10, 0]] : CTable), sqDist p c < SENTINEL := by
    intro p hp
    refine ⟨[0, 0], by simp, ?_⟩
    rcases List.mem_cons.1 hp with rfl | hp
    · norm_num [sqDist, SENTINEL]
    · simp at hp
      subst hp
      norm_num [sqDist, SENTINEL]
  exact ⟨⟨by norm_num, by norm_num, by norm_num [MAX_FEATURES], hlen, hrange⟩,
    (c1_reduction_invariance [[(0:ℚ), 0], [10, 0]] [[(0:ℚ), 0], [10, 11]] 2 2
      (by norm_num) (by norm_num) (by norm_num [MAX_FEATURES])
      hlen hrange).1 1⟩

/-- C9: for every run of the local assignment kernel with `K ≥ 1` and
`D ≥ 1`, the merged per-cluster counts written to the unit's output
region sum to exactly the unit's point count — every point of the block
lands in exactly one cluster — and each cluster's output sum vector is
the elementwise sum of the feature vectors of exactly the points assigned
to it. -/
theorem c9_conservation (cents : CTable) (pts : List Point) (W D : ℕ)
    (hW : 1 ≤ W) (hK : 1 ≤ cents.length) (hD : 1 ≤ D)
    (hD16 : D ≤ MAX_FEATURES) (hlen : ∀ p ∈ pts, p.length = D) :
    (∑ c ∈ Finset.range cents.length, (dpuMerged cents pts W D).counts c)
      = pts.length ∧
    (∀ c, (dpuMerged cents pts W D).counts c
      = (assignedPts cents c pts).length) ∧
    (∀ c, (dpuMerged cents pts W D).sums c
      = vecSum D (assignedPts cents c pts)) := by
  have hc : ∀ c, (dpuMerged cents pts W D).counts c
      = (assignedPts cents c pts).length :=
    fun c => dpuMerged_counts cents pts W D c hW hD hD16
  refine ⟨?_, hc, fun c => dpuMerged_sums cents pts W D c hW hD hD16 hlen⟩
  rw [Finset.sum_congr rfl fun c _ => hc c]
  exact sum_assigned cents pts hK

/-- C9 witness: conservation at a concrete three-point block on two
tasklets. -/
theorem c9_witness :
    ((1 ≤ 2) ∧ (1 ≤ ([[(0:ℚ), 0], [10, 0]] : CTable).length) ∧ (1 ≤ 2) ∧
      (2 ≤ MAX_FEATURES) ∧
      (∀ p ∈ [[(0:ℚ), 0], [1, 0], [10, 11]], p.length = 2)) ∧
    (∑ c ∈ Finset.range ([[(0:ℚ), 0], [10, 0]] : CTable).length,
      (dpuMerged [[(0:ℚ), 0], [10, 0]]
        [[(0:ℚ), 0], [1, 0], [10, 11]] 2 2).counts c) = 3 := by
  have hlen : ∀ p ∈ [[(0:ℚ), 0], [1, 0], [10, 11]], p.length = 2 := by
    intro p hp
    rcases List.mem_cons.1 hp with rfl | hp
    · rfl
    rcases List.mem_cons.1 hp with rfl | hp
    · rfl
    · simp at hp
      subst hp
      rfl
  exact ⟨⟨by norm_num, by norm_num, by norm_num, by norm_num [MAX_FEATURES],
      hlen⟩,
    (c9_conservation [[(0:ℚ), 0], [10, 0]] [[(0:ℚ), 0], [1, 0], [10, 11]] 2 2
      (by norm_num) (by norm_num) (by norm_num) (by norm_num [MAX_FEATURES])
      hlen).1⟩

/-- C6: the floating-policy scenario: `N = 6`, `D = 2`, `K = 2`, points
`{(0,0),(1,0),(0,1),(10,10),(11,10),(10,11)}`, initial centroids
`{(0,0),(10,0)}`; one assignment iteration sends the first three points
to cluster 0 and the last three to cluster 1, with counts `{3,3}`, and
the centroid update yields `(1/3, 1/3)` and `(31/3, 31/3)`. -/
theorem c6_scenario :
    bestClusterDpu [[(0:ℚ), 0], [10, 0]] [0, 0] = 0 ∧
    bestClusterDpu [[(0:ℚ), 0], [10, 0]] [1, 0] = 0 ∧
    bestClusterDpu [[(0:ℚ), 0], [10, 0]] [0, 1] = 0 ∧
    bestClusterDpu [[(0:ℚ), 0], [10, 0]] [10, 10] = 1 ∧
    bestClusterDpu [[(0:ℚ), 0], [10, 0]] [11, 10] = 1 ∧
    bestClusterDpu [[(0:ℚ), 0], [10, 0]] [10, 11] = 1 ∧
    (accumulate [[(0:ℚ), 0], [10, 0]]
      [[(0:ℚ), 0], [1, 0], [0, 1], [10, 10], [11, 10], [10, 11]]
      (zeroAgg 2)).counts 0 = 3 ∧
    (accumulate [[(0:ℚ), 0], [10, 0]]
      [[(0:ℚ), 0], [1, 0], [0, 1], [10, 10], [11, 10], [10, 11]]
      (zeroAgg 2)).counts 1 = 3 ∧
    updateCentroids [[(0:ℚ), 0], [10, 0]]
      (accumulate [[(0:ℚ), 0], [10, 0]]
        [[(0:ℚ), 0], [1, 0], [0, 1], [10, 10], [11, 10], [10, 11]]
        (zeroAgg 2))
      = [[1/3, 1/3], [31/3, 31/3]] := by
  refine ⟨?_, ?_, ?_, ?_, ?_, ?_, ?_, ?_, ?_⟩ <;>
    norm_num [updateCentroids, accumulate, addPoint, addPointAt,
      bestClusterDpu, scanBest, sqDist, SENTINEL, zeroAgg,
      Function.update_apply, vecAdd, List.range_succ, List.replicate]
